import Mathlib

/-!
Verification of the Reddit competitive-intelligence frontend.

This file gives a shallow embedding of the client-side data model and logic:
job status types and the analyze request body, the progress
percentage display, the polling state machine of the analysis hook, the API
client response handling, and the formatting helpers.  The backend services
(entity resolution, competitive analytics) are not part of the sources, so the
parts of the development that concern them are modelled from the specification
and marked as such in their doc comments.
-/

set_option linter.all false

/-- Job status values of the client, one constructor per string literal of the
union type JobStatus in frontend/types/analysis.ts. -/
inductive JobStatus where
  | queued
  | running
  | complete
  | failed
deriving DecidableEq, Repr, Fintype

/-- Progress steps of the client, one constructor per string literal of the
union type ProgressStep in frontend/types/analysis.ts. -/
inductive ProgressStep where
  | resolving_company
  | discovering_subreddits
  | fetching_sources
  | llm_extraction
  | persisting
deriving DecidableEq, Repr, Fintype

/-- The JobResult interface of frontend/types/analysis.ts. -/
structure JobResult where
  company_name : String
  company_aliases : Option (List String)
  subreddit_count : Nat
  source_count : Nat
  entity_count : Nat
  relationship_count : Nat
deriving DecidableEq, Repr

/-- The JobResponse interface of frontend/types/analysis.ts: the body of a
GET request for a job id. -/
structure JobResponse where
  job_id : String
  status : JobStatus
  progress : Option ProgressStep
  error : Option String
  result : Option JobResult
deriving DecidableEq, Repr

/-- The progressPercent record of the JobStatus component: the percentage
displayed for each progress step. -/
def progressPercent : ProgressStep → Nat
  | .resolving_company => 10
  | .discovering_subreddits => 25
  | .fetching_sources => 50
  | .llm_extraction => 75
  | .persisting => 95

/-- The percent computation of the JobStatus component: a non-null progress
step selects its entry of progressPercent, otherwise a complete status shows
100 and anything else shows 0. -/
def displayPercent (progress : Option ProgressStep) (status : Option JobStatus) : Nat :=
  match progress with
  | some p => progressPercent p
  | none => if status = some JobStatus.complete then 100 else 0

/-- Position of a step in the fixed progress sequence of the specification. -/
def stepIdx : ProgressStep → Nat
  | .resolving_company => 0
  | .discovering_subreddits => 1
  | .fetching_sources => 2
  | .llm_extraction => 3
  | .persisting => 4

/-- Position of a polled observation (progress, status) along the fixed
sequence: a shown step sits after the start observation, and a complete
status with cleared progress sits after every step. -/
def obsIdx (progress : Option ProgressStep) (status : Option JobStatus) : Nat :=
  match progress with
  | some p => stepIdx p + 1
  | none => if status = some JobStatus.complete then 6 else 0

/-- C5: the progress-to-percentage mapping is strictly increasing along the
fixed progress sequence, the complete status displays 100, and the displayed
percentage is monotone in the position of the observation along the fixed
sequence, hence non-decreasing for a job whose observations follow it. -/
theorem displayPercent_monotone_along_sequence :
    (∀ p q : ProgressStep, stepIdx p < stepIdx q → progressPercent p < progressPercent q) ∧
    displayPercent none (some JobStatus.complete) = 100 ∧
    (∀ (p₁ p₂ : Option ProgressStep) (s₁ s₂ : Option JobStatus),
      obsIdx p₁ s₁ ≤ obsIdx p₂ s₂ → displayPercent p₁ s₁ ≤ displayPercent p₂ s₂) := by
  refine ⟨by decide, by decide, ?_⟩
  decide

/-- Witness for C5 at concrete observations: fetching_sources precedes
persisting in the fixed sequence and its displayed percentage is smaller. -/
theorem displayPercent_monotone_witness :
    stepIdx ProgressStep.fetching_sources < stepIdx ProgressStep.persisting ∧
    progressPercent ProgressStep.fetching_sources < progressPercent ProgressStep.persisting ∧
    obsIdx (some ProgressStep.llm_extraction) (some JobStatus.running) ≤
      obsIdx none (some JobStatus.complete) ∧
    displayPercent (some ProgressStep.llm_extraction) (some JobStatus.running) ≤
      displayPercent none (some JobStatus.complete) := by
  refine ⟨by decide, ?_, by decide, ?_⟩
  · exact displayPercent_monotone_along_sequence.1
      ProgressStep.fetching_sources ProgressStep.persisting (by decide)
  · exact displayPercent_monotone_along_sequence.2.2
      (some ProgressStep.llm_extraction) none (some JobStatus.running)
      (some JobStatus.complete) (by decide)

/-- C8: every job response carries a status drawn from exactly the four
states and a progress that is one of the five steps or null; the client type
admits no other value. -/
theorem jobResponse_status_progress_closed :
    ∀ j : JobResponse,
      (j.status = JobStatus.queued ∨ j.status = JobStatus.running ∨
        j.status = JobStatus.complete ∨ j.status = JobStatus.failed) ∧
      (j.progress = none ∨
        j.progress = some ProgressStep.resolving_company ∨
        j.progress = some ProgressStep.discovering_subreddits ∨
        j.progress = some ProgressStep.fetching_sources ∨
        j.progress = some ProgressStep.llm_extraction ∨
        j.progress = some ProgressStep.persisting) := by
  intro j
  constructor
  · cases j.status <;> simp
  · match h : j.progress with
    | none => exact Or.inl rfl
    | some p => cases p <;> simp

/-- Characters of the truncation suffix appended by the formatter. -/
def ellipsisChars : List Char := ['.', '.', '.']

/-- JavaScript slice of a string (as a character list) from index 0 up to a
possibly negative end index: a negative end counts back from the end of the
string, and the result never reads past the end. -/
def jsSliceTo (s : List Char) (e : Int) : List Char :=
  if e < 0 then s.take (max 0 ((s.length : Int) + e)).toNat
  else s.take (min e (s.length : Int)).toNat

/-- The truncate helper of frontend/lib/format.ts: a string no longer than
maxLen is returned unchanged, otherwise its slice up to maxLen minus three is
returned with three dots appended. -/
def truncate (s : List Char) (maxLen : Nat) : List Char :=
  if s.length ≤ maxLen then s
  else jsSliceTo s ((maxLen : Int) - 3) ++ ellipsisChars

/-- C9: for maxLen at least 3, truncate returns short strings unchanged and
otherwise returns exactly the first maxLen minus three characters followed by
three dots, a string of length exactly maxLen; the result never exceeds the
requested length. -/
theorem truncate_spec (s : List Char) (maxLen : Nat) (h : 3 ≤ maxLen) :
    (s.length ≤ maxLen → truncate s maxLen = s) ∧
    (maxLen < s.length →
      truncate s maxLen = s.take (maxLen - 3) ++ ellipsisChars ∧
      (truncate s maxLen).length = maxLen) ∧
    (truncate s maxLen).length ≤ maxLen := by
  by_cases hle : s.length ≤ maxLen
  · refine ⟨fun _ => by simp [truncate, hle], fun hlt => absurd hle (by omega), ?_⟩
    simpa [truncate, hle] using hle
  · have hlt : maxLen < s.length := by omega
    have he : ¬ ((maxLen : Int) - 3 < 0) := by omega
    have hmin : min ((maxLen : Int) - 3) (s.length : Int) = (maxLen : Int) - 3 := by omega
    have htr : truncate s maxLen = s.take (maxLen - 3) ++ ellipsisChars := by
      simp only [truncate, if_neg hle, jsSliceTo, if_neg he, hmin]
      congr 1
      congr 1
      omega
    have hlen : (truncate s maxLen).length = maxLen := by
      rw [htr]
      simp only [List.length_append, List.length_take, ellipsisChars]
      simp only [List.length_cons, List.length_nil]
      omega
    exact ⟨fun hct => absurd hct (by omega), fun _ => ⟨htr, hlen⟩, by omega⟩

/-- Witness for C9 at a concrete input: a ten character string truncated to
length five keeps its first two characters and gains three dots. -/
theorem truncate_spec_witness :
    truncate ['a', 'b', 'c', 'd', 'e', 'f', 'g', 'h', 'i', 'j'] 5 =
      ['a', 'b', '.', '.', '.'] ∧
    (truncate ['a', 'b', 'c', 'd', 'e', 'f', 'g', 'h', 'i', 'j'] 5).length = 5 := by
  have h := truncate_spec ['a', 'b', 'c', 'd', 'e', 'f', 'g', 'h', 'i', 'j'] 5 (by decide)
  obtain ⟨heq, hlen⟩ := h.2.1 (by decide)
  exact ⟨by simpa using heq, hlen⟩

/-- A JSON value occurring in the analyze request body. -/
inductive JsonVal where
  | str (s : String)
  | arr (xs : List String)
deriving DecidableEq, Repr

/-- The AnalyzeRequest interface of frontend/types/analysis.ts: the request
body type has a domain field and no other field. -/
structure AnalyzeRequest where
  domain : String
deriving DecidableEq, Repr

/-- The AnalyzeResponse interface of frontend/types/analysis.ts. -/
structure AnalyzeResponse where
  job_id : String
  status : JobStatus
deriving DecidableEq, Repr

/-- Serialization of the analyze request body: the JSON object posted to the
analyze endpoint, one field per field of AnalyzeRequest. -/
def analyzeRequestJson (r : AnalyzeRequest) : List (String × JsonVal) :=
  [("domain", JsonVal.str r.domain)]

/-- The startAnalysis service function: posts a body consisting of the domain
alone to the analyze endpoint. -/
def startAnalysisBody (domain : String) : AnalyzeRequest :=
  { domain := domain }

/-- The body issued by the start function of useAnalysisJob: start receives
only the domain and forwards it to startAnalysis. -/
def useAnalysisJobStartBody (domain : String) : AnalyzeRequest :=
  startAnalysisBody domain

/-- The body issued by handleAnalyze of the page component: it calls the
start function of the hook with the domain and the competitors list, but the
start function declares a single domain parameter, so the competitors
argument is dropped and does not reach the request. -/
def handleAnalyzeBody (domain : String) (competitors : List String) : AnalyzeRequest :=
  useAnalysisJobStartBody domain

/-- C1: evaluation at the failing input. Submitting domain openai.com with
one user-entered competitor produces a POST body whose JSON object has a
domain field but no competitors field at all: the competitors entered by the
user are not included in the request. -/
theorem analyze_request_drops_competitors :
    (analyzeRequestJson (handleAnalyzeBody "openai.com" ["anthropic.com"])).lookup
        "competitors" = none ∧
    (analyzeRequestJson (handleAnalyzeBody "openai.com" ["anthropic.com"])).lookup
        "domain" = some (JsonVal.str "openai.com") := by
  constructor <;> rfl

/-- JavaScript or-else on an optional string: a missing or empty string is
falsy and selects the fallback. -/
def jsOrStr (o : Option String) (fallback : String) : String :=
  match o with
  | some s => if s = "" then fallback else s
  | none => fallback

/-- Outcome of one getJobStatus call as seen by the poll callback: a parsed
job response, a thrown ApiError with its message, or any other failure. -/
inductive PollResult where
  | ok (job : JobResponse)
  | apiFail (message : String)
  | otherFail
deriving DecidableEq, Repr

/-- State of the useAnalysisJob hook: its six state variables plus whether
the polling interval is set. -/
structure HookState where
  jobId : Option String
  status : Option JobStatus
  progress : Option ProgressStep
  error : Option String
  result : Option JobResult
  isLoading : Bool
  polling : Bool
deriving DecidableEq, Repr

/-- The poll callback of useAnalysisJob: on a response it stores status and
progress, then on complete stores the result and stops polling, on failed
stores a non-empty error and stops polling; on a thrown error it stores the
error message and stops polling; otherwise polling continues. -/
def pollStep (s : HookState) (r : PollResult) : HookState :=
  match r with
  | .ok job =>
    let s1 : HookState := { s with status := some job.status, progress := job.progress }
    if job.status = JobStatus.complete then
      { s1 with result := job.result, isLoading := false, polling := false }
    else if job.status = JobStatus.failed then
      { s1 with error := some (jsOrStr job.error "Analysis failed"),
                isLoading := false, polling := false }
    else s1
  | .apiFail message =>
    { s with error := some message, isLoading := false, polling := false }
  | .otherFail =>
    { s with error := some "Failed to fetch job status", isLoading := false, polling := false }

/-- The hook state right after a successful startAnalysis call inside start:
error, result and progress cleared, loading set, job id and status taken from
the response, and the polling interval installed. -/
def startedState (resp : AnalyzeResponse) : HookState :=
  { jobId := some resp.job_id, status := some resp.status, progress := none,
    error := none, result := none, isLoading := true, polling := true }

/-- Runs the poll callback over a sequence of poll outcomes; a step runs only
while the polling interval is installed. -/
def runPolls (s : HookState) : List PollResult → HookState
  | [] => s
  | r :: rs => if s.polling then runPolls (pollStep s r) rs else s

/-- Number of status reads issued over a sequence of poll outcomes: one read
per step taken while the polling interval is installed. -/
def readsIssued (s : HookState) : List PollResult → Nat
  | [] => 0
  | r :: rs => if s.polling then readsIssued (pollStep s r) rs + 1 else 0

/-- A poll outcome is terminal when it reports a complete or failed status or
the status request itself fails. -/
def terminalResult : PollResult → Prop
  | .ok job => job.status = JobStatus.complete ∨ job.status = JobStatus.failed
  | .apiFail _ => True
  | .otherFail => True

instance : DecidablePred terminalResult := by
  intro r
  cases r <;> simp [terminalResult] <;> infer_instance

/-- The poll interval constant of useAnalysisJob, in milliseconds. -/
def POLL_INTERVAL : Nat := 1500

/-- C3: the client polls at the fixed interval of 1500 milliseconds, polling
stops exactly when a poll observes a terminal status or the status request
fails, and once polling stopped no further status read is issued. -/
theorem polling_stops_exactly_at_terminal :
    POLL_INTERVAL = 1500 ∧
    (∀ (s : HookState) (r : PollResult), s.polling = true →
      ((pollStep s r).polling = false ↔ terminalResult r)) ∧
    (∀ (s : HookState) (tr : List PollResult), s.polling = false →
      runPolls s tr = s ∧ readsIssued s tr = 0) := by
  refine ⟨rfl, ?_, ?_⟩
  · intro s r hp
    cases r with
    | ok job =>
      cases hs : job.status <;>
        simp [pollStep, terminalResult, hs, hp]
    | apiFail message => simp [pollStep, terminalResult]
    | otherFail => simp [pollStep, terminalResult]
  · intro s tr hp
    cases tr with
    | nil => exact ⟨rfl, rfl⟩
    | cons r rs => simp [runPolls, readsIssued, hp]

/-- A concrete successful analyze response used in witnesses. -/
def respQueued : AnalyzeResponse :=
  { job_id := "j1", status := JobStatus.queued }

/-- A concrete job response reporting completion, used in witnesses. -/
def jobComplete : JobResponse :=
  { job_id := "j1", status := JobStatus.complete, progress := none,
    error := none, result := none }

/-- A concrete job response reporting a running job, used in witnesses. -/
def jobRunning : JobResponse :=
  { job_id := "j1", status := JobStatus.running,
    progress := some ProgressStep.persisting, error := none, result := none }

/-- A concrete hook state in which polling has stopped, used in witnesses. -/
def stoppedState : HookState :=
  { jobId := some "j1", status := some JobStatus.complete, progress := none,
    error := none, result := none, isLoading := false, polling := false }

/-- Witness for C3 at a concrete run: a started job that observes a complete
status stops polling at that observation, and a stopped state issues no
further reads. -/
theorem polling_stops_witness :
    (pollStep (startedState respQueued) (PollResult.ok jobComplete)).polling = false ∧
    runPolls stoppedState [PollResult.ok jobRunning] = stoppedState ∧
    readsIssued stoppedState [PollResult.ok jobRunning] = 0 := by
  refine ⟨?_, ?_, ?_⟩
  · exact (polling_stops_exactly_at_terminal.2.1 (startedState respQueued)
      (PollResult.ok jobComplete) rfl).mpr (Or.inl rfl)
  · exact (polling_stops_exactly_at_terminal.2.2 stoppedState
      [PollResult.ok jobRunning] rfl).1
  · exact (polling_stops_exactly_at_terminal.2.2 stoppedState
      [PollResult.ok jobRunning] rfl).2

/-- The or-else fallback of the failed branch never yields an empty string:
either the non-empty server error or the non-empty fallback text is used. -/
theorem jsOrStr_ne_empty (o : Option String) (fb : String) (hfb : fb ≠ "") :
    jsOrStr o fb ≠ "" := by
  cases o with
  | none => exact hfb
  | some s =>
    by_cases h : s = "" <;> simp [jsOrStr, h, hfb]

/-- Invariant of the hook state maintained by polling: while polling no
result is stored and no failed status is shown, a stored result implies a
complete status, and a failed status comes with no result and a non-empty
error message. -/
def hookInv (s : HookState) : Prop :=
  (s.polling = true → s.result = none ∧ s.status ≠ some JobStatus.failed) ∧
  (s.result ≠ none → s.status = some JobStatus.complete) ∧
  (s.status = some JobStatus.failed →
    s.result = none ∧ ∃ e, s.error = some e ∧ e ≠ "")

/-- One poll step preserves the hook invariant. -/
theorem hookInv_pollStep (s : HookState) (r : PollResult)
    (hp : s.polling = true) (hinv : hookInv s) : hookInv (pollStep s r) := by
  obtain ⟨h1, h2, h3⟩ := hinv
  obtain ⟨hres, hstat⟩ := h1 hp
  cases r with
  | ok job =>
    cases hs : job.status with
    | complete =>
      refine ⟨fun hc => by simp [pollStep, hs] at hc, fun _ => ?_, fun hc => ?_⟩
      · simp [pollStep, hs]
      · simp [pollStep, hs] at hc
    | failed =>
      refine ⟨fun hc => by simp [pollStep, hs] at hc, fun hc => ?_, fun _ => ?_⟩
      · exact absurd (by simpa [pollStep, hs] using hc) (by simp [hres])
      · refine ⟨by simpa [pollStep, hs] using hres, jsOrStr job.error "Analysis failed", ?_, ?_⟩
        · simp [pollStep, hs]
        · exact jsOrStr_ne_empty job.error "Analysis failed" (by decide)
    | queued =>
      refine ⟨fun _ => ⟨by simpa [pollStep, hs] using hres, by simp [pollStep, hs]⟩,
        fun hc => ?_, fun hc => ?_⟩
      · exact absurd (by simpa [pollStep, hs] using hc) (by simp [hres])
      · simp [pollStep, hs] at hc
    | running =>
      refine ⟨fun _ => ⟨by simpa [pollStep, hs] using hres, by simp [pollStep, hs]⟩,
        fun hc => ?_, fun hc => ?_⟩
      · exact absurd (by simpa [pollStep, hs] using hc) (by simp [hres])
      · simp [pollStep, hs] at hc
  | apiFail message =>
    refine ⟨fun hc => by simp [pollStep] at hc, fun hc => ?_, fun hc => ?_⟩
    · exact absurd (by simpa [pollStep] using hc) (by simp [hres])
    · exact absurd (by simpa [pollStep] using hc) hstat
  | otherFail =>
    refine ⟨fun hc => by simp [pollStep] at hc, fun hc => ?_, fun hc => ?_⟩
    · exact absurd (by simpa [pollStep] using hc) (by simp [hres])
    · exact absurd (by simpa [pollStep] using hc) hstat

/-- Any polling run preserves the hook invariant. -/
theorem hookInv_runPolls (s : HookState) (tr : List PollResult)
    (hinv : hookInv s) : hookInv (runPolls s tr) := by
  induction tr generalizing s with
  | nil => exact hinv
  | cons r rs ih =>
    by_cases hp : s.polling = true
    · simpa [runPolls, hp] using ih (pollStep s r) (hookInv_pollStep s r hp hinv)
    · simpa [runPolls, Bool.eq_false_iff.mpr hp] using hinv

/-- The state installed by a successful start with a queued server response
satisfies the hook invariant. -/
theorem hookInv_startedState (resp : AnalyzeResponse)
    (h : resp.status = JobStatus.queued) : hookInv (startedState resp) := by
  refine ⟨fun _ => ⟨rfl, ?_⟩, fun hc => absurd rfl hc, fun hc => ?_⟩
  · simp [startedState, h]
  · simp [startedState, h] at hc

/-- C4: over any polling run of a started job, a stored non-null result is
shown only with a complete status, and a failed status is shown with a null
result and a non-empty error message. -/
theorem failed_job_no_result (resp : AnalyzeResponse) (tr : List PollResult)
    (h : resp.status = JobStatus.queued) :
    ((runPolls (startedState resp) tr).result ≠ none →
      (runPolls (startedState resp) tr).status = some JobStatus.complete) ∧
    ((runPolls (startedState resp) tr).status = some JobStatus.failed →
      (runPolls (startedState resp) tr).result = none ∧
      ∃ e, (runPolls (startedState resp) tr).error = some e ∧ e ≠ "") := by
  have hinv := hookInv_runPolls (startedState resp) tr (hookInv_startedState resp h)
  exact ⟨hinv.2.1, hinv.2.2⟩

/-- A concrete job response reporting failure with a null error, used in
witnesses: the hook substitutes the fallback message. -/
def jobFailed : JobResponse :=
  { job_id := "j1", status := JobStatus.failed, progress := none,
    error := none, result := none }

/-- Witness for C4 at a concrete run: a job that fails on the first poll ends
with no result and the non-empty fallback error message. -/
theorem failed_job_no_result_witness :
    (runPolls (startedState respQueued) [PollResult.ok jobFailed]).result = none ∧
    (runPolls (startedState respQueued) [PollResult.ok jobFailed]).error =
      some "Analysis failed" := by
  have h := failed_job_no_result respQueued [PollResult.ok jobFailed] rfl
  have h2 := h.2 (by decide)
  exact ⟨h2.1, by decide⟩

/-- An HTTP response as observed by the API client, over the expected payload
type. The body field is the result of parsing the response body as JSON at
the expected type, none when the body is absent or not parseable JSON; the
bodyDetail and bodyMessage fields are the detail and message fields of the
parsed error body, none when the field is absent or the body is not
parseable JSON. -/
structure HttpResponse (α : Type) where
  ok : Bool
  status : Nat
  statusText : String
  body : Option α
  bodyDetail : Option String
  bodyMessage : Option String

/-- Outcome of an API client helper call: a returned value, a thrown
ApiError carrying status, status text and message, or a thrown JSON parse
error on an ok response whose body is not parseable. -/
inductive FetchOutcome (α : Type) where
  | success (value : α)
  | apiThrow (status : Nat) (statusText : String) (message : String)
  | jsonThrow
deriving DecidableEq

/-- JavaScript truthiness filter on an optional string: a missing or empty
string is falsy and becomes none. -/
def truthyStr (o : Option String) : Option String :=
  match o with
  | some s => if s = "" then none else some s
  | none => none

/-- Message stored by the ApiError constructor: the message argument when it
is truthy, otherwise the status and status text joined by a space. -/
def apiErrorMessage (status : Nat) (statusText : String) (message : Option String) : String :=
  match truthyStr message with
  | some m => m
  | none => toString status ++ " " ++ statusText

/-- The handleResponse helper of frontend/services/apiClient.ts: an ok
response returns its parsed JSON body (a parse failure on an ok body throws a
parse error), a non-ok response throws an ApiError whose message is the
detail field of the error body, else its message field, else the status and
status text. -/
def handleResponse {α : Type} (r : HttpResponse α) : FetchOutcome α :=
  if r.ok then
    match r.body with
    | some v => FetchOutcome.success v
    | none => FetchOutcome.jsonThrow
  else
    FetchOutcome.apiThrow r.status r.statusText
      (apiErrorMessage r.status r.statusText
        (match truthyStr r.bodyDetail with
          | some d => some d
          | none => r.bodyMessage))

/-- The get helper of apiClient.ts: it issues the fetch and returns the
handleResponse outcome of the response. -/
def getOutcome {α : Type} (r : HttpResponse α) : FetchOutcome α :=
  handleResponse r

/-- The post helper of apiClient.ts: it issues the fetch with the serialized
body and returns the handleResponse outcome of the response. -/
def postOutcome {α : Type} (r : HttpResponse α) : FetchOutcome α :=
  handleResponse r

/-- A string selected by the truthiness filter is never empty. -/
theorem truthyStr_ne_empty (o : Option String) (d : String)
    (h : truthyStr o = some d) : d ≠ "" := by
  cases o with
  | none => simp [truthyStr] at h
  | some s =>
    by_cases hs : s = ""
    · simp [truthyStr, hs] at h
    · simp [truthyStr, hs] at h
      exact h ▸ hs

/-- C10: both helpers return the parsed JSON body exactly on an ok response,
and on a non-ok response they never return a value and throw an ApiError
with the response status and a message taken from the error body detail or
message field, falling back to the status and status text when neither is
available. -/
theorem handleResponse_spec {α : Type} (r : HttpResponse α) :
    getOutcome r = postOutcome r ∧
    (r.ok = true → ∀ v : α, r.body = some v → getOutcome r = FetchOutcome.success v) ∧
    (r.ok = false →
      (∀ v : α, getOutcome r ≠ FetchOutcome.success v) ∧
      (∀ d, truthyStr r.bodyDetail = some d →
        getOutcome r = FetchOutcome.apiThrow r.status r.statusText d) ∧
      (∀ m, truthyStr r.bodyDetail = none → truthyStr r.bodyMessage = some m →
        getOutcome r = FetchOutcome.apiThrow r.status r.statusText m) ∧
      (truthyStr r.bodyDetail = none → truthyStr r.bodyMessage = none →
        getOutcome r = FetchOutcome.apiThrow r.status r.statusText
          (toString r.status ++ " " ++ r.statusText))) := by
  refine ⟨rfl, ?_, ?_⟩
  · intro hok v hv
    simp [getOutcome, handleResponse, hok, hv]
  · intro hok
    have hnok : r.ok = false := hok
    refine ⟨?_, ?_, ?_, ?_⟩
    · intro v
      simp [getOutcome, handleResponse, hnok]
    · intro d hd
      have hdne := truthyStr_ne_empty r.bodyDetail d hd
      simp [getOutcome, handleResponse, hnok, hd, apiErrorMessage]
      simp [truthyStr, hdne]
    · intro m hd hm
      simp [getOutcome, handleResponse, hnok, hd, apiErrorMessage, hm]
    · intro hd hm
      simp [getOutcome, handleResponse, hnok, hd, apiErrorMessage, hm]

/-- A concrete ok response carrying a parsed payload, used in witnesses. -/
def okResponse : HttpResponse Nat :=
  { ok := true, status := 200, statusText := "OK", body := some 7,
    bodyDetail := none, bodyMessage := none }

/-- A concrete non-ok response whose error body has a detail field, used in
witnesses. -/
def notFoundResponse : HttpResponse Nat :=
  { ok := false, status := 404, statusText := "Not Found", body := none,
    bodyDetail := some "job not found", bodyMessage := none }

/-- Witness for C10 at concrete responses: the ok response returns its
parsed payload and the non-ok response throws an ApiError built from the
status and the error body detail. -/
theorem handleResponse_spec_witness :
    getOutcome okResponse = FetchOutcome.success 7 ∧
    getOutcome notFoundResponse =
      FetchOutcome.apiThrow 404 "Not Found" "job not found" := by
  constructor
  · exact (handleResponse_spec okResponse).2.1 rfl 7 rfl
  · exact ((handleResponse_spec notFoundResponse).2.2 rfl).2.1 "job not found" (by decide)

/-- Common company suffixes stripped by the deterministic normalization, as
character lists. -/
def companySuffixes : List (List Char) :=
  [['i', 'n', 'c'], ['c', 'o', 'r', 'p'], ['l', 't', 'd']]

/-- Splits a character list into its whitespace-separated words, dropping
empty fragments, so that repeated whitespace is collapsed. -/
def splitWordsAux : List Char → List Char → List (List Char)
  | [], acc => if acc.isEmpty then [] else [acc.reverse]
  | c :: cs, acc =>
    if c = ' ' then
      if acc.isEmpty then splitWordsAux cs [] else acc.reverse :: splitWordsAux cs []
    else splitWordsAux cs (c :: acc)

/-- Joins words with single spaces. -/
def joinWords : List (List Char) → List Char
  | [] => []
  | [w] => w
  | w :: ws => w ++ ' ' :: joinWords ws

/-- Modelled from the spec: the deterministic surface-form normalization of
the EntityResolver, which lives in the backend service sources that are not
present under src. Lowercase, strip a leading at-sign, strip punctuation,
strip a common company suffix, collapse repeated whitespace. -/
def normalizeSurface (s : String) : String :=
  let lowered := s.data.map Char.toLower
  let deAt :=
    match lowered with
    | '@' :: rest => rest
    | other => other
  let kept := deAt.filter (fun c => c.isAlphanum || c = ' ')
  let words := splitWordsAux kept []
  let trimmed :=
    match words.getLast? with
    | some w => if w ∈ companySuffixes then words.dropLast else words
    | none => words
  String.mk (joinWords trimmed)

/-- Modelled from the spec: the per-mention confidence exposed downstream by
the EntityResolver (backend service, not present under src) is the product
of the LLM confidence and the resolution confidence. -/
def mentionConfidence (llm res : ℚ) : ℚ := llm * res

/-- Modelled from the spec: the second-stage resolution confidence of the
EntityResolver (backend service, not present under src). An exact normalized
match against an existing canonical name yields confidence 1 and
short-circuits the fuzzy step; otherwise a similarity inside the accepted
band from 0.7 to 0.9 merges at that similarity as confidence; outside the
band the mention spawns a fresh entity, which it matches exactly. -/
def resolutionConfidence (canonicals : List String) (similarity : ℚ) (surface : String) : ℚ :=
  if normalizeSurface surface ∈ canonicals.map normalizeSurface then 1
  else if 7 / 10 ≤ similarity ∧ similarity ≤ 9 / 10 then similarity
  else 1

/-- C2: the per-mention confidence is the product of the LLM and resolution
confidences, the product lies in the unit interval whenever both factors do,
and when the normalized surface form exact-matches an existing canonical
name the resolution confidence is 1 and the product equals the LLM
confidence exactly. -/
theorem mention_confidence_product (llm res similarity : ℚ) (canonicals : List String)
    (surface : String) (h0 : 0 ≤ llm) (h1 : llm ≤ 1) (h2 : 0 ≤ res) (h3 : res ≤ 1) :
    mentionConfidence llm res = llm * res ∧
    (0 ≤ mentionConfidence llm res ∧ mentionConfidence llm res ≤ 1) ∧
    (normalizeSurface surface ∈ canonicals.map normalizeSurface →
      resolutionConfidence canonicals similarity surface = 1 ∧
      mentionConfidence llm (resolutionConfidence canonicals similarity surface) = llm) := by
  refine ⟨rfl, ⟨mul_nonneg h0 h2, mul_le_one₀ h1 h2 h3⟩, fun hm => ?_⟩
  have hres : resolutionConfidence canonicals similarity surface = 1 := by
    simp [resolutionConfidence, hm]
  exact ⟨hres, by simp [mentionConfidence, hres]⟩

/-- Witness for C2 at a concrete mention: the surface form with an at-sign,
a company suffix and mixed case normalizes to the same string as the
canonical name, so resolution confidence is 1 and the final confidence
equals the LLM confidence; the product of confidences in the unit interval
stays in the unit interval. -/
theorem mention_confidence_product_witness :
    resolutionConfidence ["OpenAI"] 0 "@OpenAI Inc." = 1 ∧
    mentionConfidence (4 / 5) (resolutionConfidence ["OpenAI"] 0 "@OpenAI Inc.") = 4 / 5 ∧
    0 ≤ mentionConfidence (4 / 5 : ℚ) (1 / 2) ∧ mentionConfidence (4 / 5 : ℚ) (1 / 2) ≤ 1 := by
  have h := mention_confidence_product (4 / 5) (1 / 2) 0 ["OpenAI"] "@OpenAI Inc."
    (by norm_num) (by norm_num) (by norm_num) (by norm_num)
  have hmem : normalizeSurface "@OpenAI Inc." ∈ ["OpenAI"].map normalizeSurface := by decide
  exact ⟨(h.2.2 hmem).1, (h.2.2 hmem).2, h.2.1.1, h.2.1.2⟩

/-- Modelled from the spec: a target's share of voice within one subreddit,
computed by the CompetitiveAnalytics backend service (not present under
src): the target's count divided by the total target mentions of the
subreddit, defined as 0 when that total is 0 so that no division by zero is
raised. -/
def shareFor (counts : List Nat) (c : Nat) : ℚ :=
  if counts.sum = 0 then 0 else (c : ℚ) / (counts.sum : ℚ)

/-- Modelled from the spec: the shares of all targets of one subreddit, one
entry per target count. -/
def shareOfVoice (counts : List Nat) : List ℚ :=
  counts.map (shareFor counts)

/-- Sum of pointwise divisions equals the divided sum. -/
theorem sum_map_div (l : List Nat) (T : ℚ) :
    (l.map (fun (c : Nat) => (c : ℚ) / T)).sum = ((l.sum : ℕ) : ℚ) / T := by
  induction l with
  | nil => simp
  | cons a as ih =>
    simp only [List.map_cons, List.sum_cons, ih, Nat.cast_add, add_div]

/-- C7: each target's share is its count over the subreddit total, the share
is 0 whenever the subreddit total is 0, and the shares of one subreddit sum
to at most 1 across targets. -/
theorem share_of_voice_spec (counts : List Nat) :
    (counts.sum = 0 → ∀ c, shareFor counts c = 0) ∧
    (counts.sum ≠ 0 → ∀ c, shareFor counts c = (c : ℚ) / (counts.sum : ℚ)) ∧
    (shareOfVoice counts).sum ≤ 1 := by
  refine ⟨fun h c => by simp [shareFor, h], fun h c => by simp [shareFor, h], ?_⟩
  by_cases h : counts.sum = 0
  · have hz : (shareOfVoice counts).sum = 0 := by
      apply List.sum_eq_zero
      intro x hx
      simp only [shareOfVoice, List.mem_map] at hx
      obtain ⟨c, _, rfl⟩ := hx
      simp [shareFor, h]
    rw [hz]
    norm_num
  · have hfun : shareFor counts = fun (c : Nat) => (c : ℚ) / (counts.sum : ℚ) :=
      funext fun c => by simp [shareFor, h]
    have heq : (shareOfVoice counts).sum = ((counts.sum : ℕ) : ℚ) / (counts.sum : ℚ) := by
      rw [shareOfVoice, hfun]
      exact sum_map_div counts _
    rw [heq, div_self (by exact_mod_cast h)]

/-- Witness for C7 at concrete counts: with counts 2 and 3 the first share
is two fifths and the shares sum to at most 1; with all counts 0 every share
is 0. -/
theorem share_of_voice_spec_witness :
    shareFor [2, 3] 2 = 2 / 5 ∧
    (shareOfVoice [2, 3]).sum ≤ 1 ∧
    shareFor [0, 0] 0 = 0 := by
  have h := share_of_voice_spec [2, 3]
  have h0 := share_of_voice_spec [0, 0]
  refine ⟨?_, h.2.2, h0.1 (by decide) 0⟩
  rw [h.2.1 (by decide) 2]
  norm_num

/-- The CoMentionsSummary interface of frontend/types/competitive.ts: an
unordered pair of target names with its co-mention count. -/
structure CoMention where
  pair : String × String
  count : Nat
deriving DecidableEq, Repr

/-- Modelled from the spec: the co-mention counter of the
CompetitiveAnalytics backend service (not present under src): the number of
sources in whose text both targets appear. -/
def coMentionCount (sources : List (List String)) (a b : String) : Nat :=
  (sources.filter (fun src => src.contains a && src.contains b)).length

/-- All pairs of distinct positions of a target list: the first component
occurs strictly before the second, so every unordered pair of distinct
targets is generated exactly once. -/
def targetPairs : List String → List (String × String)
  | [] => []
  | t :: ts => (ts.map (fun u => (t, u))) ++ targetPairs ts

/-- Insertion into a list sorted descending by count. -/
def insertByCount (x : CoMention) : List CoMention → List CoMention
  | [] => [x]
  | y :: ys => if y.count ≤ x.count then x :: y :: ys else y :: insertByCount x ys

/-- Insertion sort descending by count. -/
def sortByCountDesc : List CoMention → List CoMention
  | [] => []
  | x :: xs => insertByCount x (sortByCountDesc xs)

/-- Modelled from the spec: the co-mentions list returned by the
CompetitiveAnalytics backend service (not present under src): one counter
per unordered pair of targets incremented per shared source, pairs that
never co-occur are not reported: one counter per unordered pair of targets
with a positive count, before sorting. -/
def coMentionBase (targets : List String) (sources : List (List String)) : List CoMention :=
  ((targetPairs targets).map
      (fun p => CoMention.mk p (coMentionCount sources p.1 p.2))).filter
    (fun m => m.count != 0)

/-- Modelled from the spec: the returned co-mentions list is the counter
list of coMentionBase sorted descending by count. -/
def coMentions (targets : List String) (sources : List (List String)) : List CoMention :=
  sortByCountDesc (coMentionBase targets sources)

/-- The pairs of the returned co-mentions list, in order. -/
def coMentionPairs (targets : List String) (sources : List (List String)) :
    List (String × String) :=
  (coMentions targets sources).map CoMention.pair

/-- The co-mention count is symmetric in its two targets. -/
theorem coMentionCount_comm (sources : List (List String)) (a b : String) :
    coMentionCount sources a b = coMentionCount sources b a := by
  unfold coMentionCount
  congr 1
  apply List.filter_congr
  intro x _
  rw [Bool.and_comm]

/-- Inserting an element permutes consing it in front. -/
theorem insertByCount_perm (x : CoMention) (l : List CoMention) :
    List.Perm (insertByCount x l) (x :: l) := by
  induction l with
  | nil => exact List.Perm.refl _
  | cons y ys ih =>
    by_cases h : y.count ≤ x.count
    · simp [insertByCount, h]
    · simp only [insertByCount, if_neg h]
      exact (ih.cons y).trans (List.Perm.swap x y ys)

/-- The descending insertion sort permutes its input. -/
theorem sortByCountDesc_perm (l : List CoMention) :
    List.Perm (sortByCountDesc l) l := by
  induction l with
  | nil => exact List.Perm.refl _
  | cons x xs ih =>
    exact (insertByCount_perm x (sortByCountDesc xs)).trans (ih.cons x)

/-- Insertion preserves the descending-by-count ordering. -/
theorem insertByCount_pairwise (x : CoMention) (l : List CoMention)
    (h : l.Pairwise (fun a b => b.count ≤ a.count)) :
    (insertByCount x l).Pairwise (fun a b => b.count ≤ a.count) := by
  induction l with
  | nil => simp [insertByCount]
  | cons y ys ih =>
    rw [List.pairwise_cons] at h
    by_cases hc : y.count ≤ x.count
    · simp only [insertByCount, if_pos hc]
      rw [List.pairwise_cons]
      refine ⟨?_, List.pairwise_cons.mpr h⟩
      intro z hz
      rcases List.mem_cons.mp hz with rfl | hz
      · exact hc
      · exact le_trans (h.1 z hz) hc
    · simp only [insertByCount, if_neg hc]
      rw [List.pairwise_cons]
      refine ⟨?_, ih h.2⟩
      intro z hz
      have hz2 : z ∈ x :: ys := (insertByCount_perm x ys).mem_iff.mp hz
      rcases List.mem_cons.mp hz2 with rfl | hz3
      · exact Nat.le_of_lt (Nat.lt_of_not_le hc)
      · exact h.1 z hz3

/-- The descending insertion sort returns a list sorted descending by
count. -/
theorem sortByCountDesc_pairwise (l : List CoMention) :
    (sortByCountDesc l).Pairwise (fun a b => b.count ≤ a.count) := by
  induction l with
  | nil => simp [sortByCountDesc]
  | cons x xs ih => exact insertByCount_pairwise x (sortByCountDesc xs) ih

/-- Both components of a generated pair are targets. -/
theorem targetPairs_mem {l : List String} {a b : String}
    (h : (a, b) ∈ targetPairs l) : a ∈ l ∧ b ∈ l := by
  induction l with
  | nil => simp [targetPairs] at h
  | cons t ts ih =>
    simp only [targetPairs, List.mem_append, List.mem_map] at h
    rcases h with ⟨u, hu, he⟩ | h
    · injection he with h1 h2
      subst h1
      subst h2
      exact ⟨List.mem_cons_self t ts, List.mem_cons_of_mem t hu⟩
    · exact ⟨List.mem_cons_of_mem t (ih h).1, List.mem_cons_of_mem t (ih h).2⟩

/-- Pairing a fixed first component with distinct second components is
injective. -/
theorem pairWith_injective (t : String) :
    Function.Injective (fun (u : String) => (t, u)) := by
  intro u v huv
  exact congrArg Prod.snd huv

/-- The generated pair list of a duplicate-free target list is
duplicate-free. -/
theorem targetPairs_nodup : ∀ l : List String, l.Nodup → (targetPairs l).Nodup := by
  intro l
  induction l with
  | nil =>
    intro _
    simp [targetPairs]
  | cons t ts ih =>
    intro h
    rw [List.nodup_cons] at h
    rw [targetPairs, List.nodup_append]
    refine ⟨h.2.map (pairWith_injective t), ih h.2, ?_⟩
    intro p hp hp2
    obtain ⟨u, hu, rfl⟩ := List.mem_map.mp hp
    exact h.1 (targetPairs_mem hp2).1

/-- A generated pair never occurs together with its swap in the pair list of
a duplicate-free target list. -/
theorem targetPairs_swap : ∀ l : List String, l.Nodup → ∀ a b : String,
    (a, b) ∈ targetPairs l → (b, a) ∉ targetPairs l := by
  intro l
  induction l with
  | nil =>
    intro _ a b hab
    simp [targetPairs] at hab
  | cons t ts ih =>
    intro h a b hab hba
    rw [List.nodup_cons] at h
    simp only [targetPairs, List.mem_append, List.mem_map] at hab hba
    rcases hab with ⟨u, hu, he⟩ | hab
    · injection he with h1 h2
      subst h1
      subst h2
      rcases hba with ⟨v, hv, he2⟩ | hba
      · injection he2 with h3 h4
        apply h.1
        rw [h3]
        exact hu
      · exact h.1 (targetPairs_mem hba).2
    · rcases hba with ⟨v, hv, he2⟩ | hba
      · injection he2 with h3 h4
        apply h.1
        rw [h3]
        exact (targetPairs_mem hab).2
      · exact ih h.2 a b hab hba

/-- Any unordered pair of distinct targets is generated in one of its two
orientations. -/
theorem targetPairs_covers : ∀ (l : List String) (a b : String), a ∈ l → b ∈ l →
    a ≠ b → (a, b) ∈ targetPairs l ∨ (b, a) ∈ targetPairs l := by
  intro l
  induction l with
  | nil =>
    intro a b ha
    simp at ha
  | cons t ts ih =>
    intro a b ha hb hne
    rcases List.mem_cons.mp ha with rfl | ha2
    · rcases List.mem_cons.mp hb with rfl | hb2
      · exact absurd rfl hne
      · refine Or.inl ?_
        simp only [targetPairs, List.mem_append, List.mem_map]
        exact Or.inl ⟨b, hb2, rfl⟩
    · rcases List.mem_cons.mp hb with rfl | hb2
      · refine Or.inr ?_
        simp only [targetPairs, List.mem_append, List.mem_map]
        exact Or.inl ⟨a, ha2, rfl⟩
      · rcases ih a b ha2 hb2 hne with hc | hc
        · refine Or.inl ?_
          simp only [targetPairs, List.mem_append]
          exact Or.inr hc
        · refine Or.inr ?_
          simp only [targetPairs, List.mem_append]
          exact Or.inr hc

/-- The pairs of the sorted co-mentions list permute the pairs of the
unsorted counter list. -/
theorem coMentionPairs_perm (targets : List String) (sources : List (List String)) :
    List.Perm (coMentionPairs targets sources)
      ((coMentionBase targets sources).map CoMention.pair) := by
  unfold coMentionPairs coMentions
  exact (sortByCountDesc_perm (coMentionBase targets sources)).map CoMention.pair

/-- The pairs of the counter list form a sublist of the generated pair
list. -/
theorem coMentionBase_pairs_sublist (targets : List String) (sources : List (List String)) :
    List.Sublist ((coMentionBase targets sources).map CoMention.pair)
      (targetPairs targets) := by
  have h1 := (List.filter_sublist (l :=
    (targetPairs targets).map
      (fun p => CoMention.mk p (coMentionCount sources p.1 p.2)))
    (p := fun m => m.count != 0)).map CoMention.pair
  have hid : (((targetPairs targets).map
      (fun p => CoMention.mk p (coMentionCount sources p.1 p.2))).map CoMention.pair)
      = targetPairs targets := by
    rw [List.map_map]
    simp [Function.comp_def]
  rw [hid] at h1
  exact h1

/-- A generated pair whose co-mention count is positive occurs among the
returned pairs. -/
theorem mem_coMentionPairs_of (targets : List String) (sources : List (List String))
    (p : String × String) (hp : p ∈ targetPairs targets)
    (hc : coMentionCount sources p.1 p.2 ≠ 0) :
    p ∈ coMentionPairs targets sources := by
  apply (coMentionPairs_perm targets sources).mem_iff.mpr
  apply List.mem_map.mpr
  refine ⟨CoMention.mk p (coMentionCount sources p.1 p.2), ?_, rfl⟩
  apply List.mem_filter.mpr
  refine ⟨List.mem_map.mpr ⟨p, hp, rfl⟩, ?_⟩
  simpa using hc

/-- Every returned pair is a generated pair. -/
theorem coMentionPairs_subset (targets : List String) (sources : List (List String))
    (p : String × String) (hp : p ∈ coMentionPairs targets sources) :
    p ∈ targetPairs targets := by
  have h1 := (coMentionPairs_perm targets sources).mem_iff.mp hp
  exact (coMentionBase_pairs_sublist targets sources).subset h1

/-- C6: the co-mention count is symmetric, the returned co-mentions list
reports each unordered pair at most once (no duplicates and never both
orientations), every unordered pair of distinct targets co-occurring in some
source is reported, and the list is sorted descending by count. -/
theorem co_mentions_spec (targets : List String) (sources : List (List String))
    (hnd : targets.Nodup) :
    (∀ a b, coMentionCount sources a b = coMentionCount sources b a) ∧
    (coMentionPairs targets sources).Nodup ∧
    (∀ p ∈ coMentionPairs targets sources,
      (p.2, p.1) ∉ coMentionPairs targets sources) ∧
    (∀ a b, a ∈ targets → b ∈ targets → a ≠ b → coMentionCount sources a b ≠ 0 →
      (a, b) ∈ coMentionPairs targets sources ∨
      (b, a) ∈ coMentionPairs targets sources) ∧
    (coMentions targets sources).Pairwise (fun x y => y.count ≤ x.count) := by
  refine ⟨coMentionCount_comm sources, ?_, ?_, ?_, ?_⟩
  · exact (coMentionPairs_perm targets sources).symm.nodup
      ((targetPairs_nodup targets hnd).sublist (coMentionBase_pairs_sublist targets sources))
  · intro p hp hswap
    exact targetPairs_swap targets hnd p.1 p.2
      (coMentionPairs_subset targets sources p hp)
      (coMentionPairs_subset targets sources (p.2, p.1) hswap)
  · intro a b ha hb hne hc
    rcases targetPairs_covers targets a b ha hb hne with hg | hg
    · exact Or.inl (mem_coMentionPairs_of targets sources (a, b) hg hc)
    · refine Or.inr (mem_coMentionPairs_of targets sources (b, a) hg ?_)
      rw [coMentionCount_comm]
      exact hc
  · exact sortByCountDesc_pairwise (coMentionBase targets sources)

/-- Concrete target names used in the co-mentions witness. -/
def demoTargets : List String := ["OpenAI", "Anthropic", "Google"]

/-- Concrete source target-mention sets used in the co-mentions witness. -/
def demoSources : List (List String) :=
  [["OpenAI", "Anthropic"], ["OpenAI", "Anthropic"], ["OpenAI", "Google"]]

/-- Witness for C6 at concrete targets and sources: the count is symmetric,
the returned pairs are duplicate-free, and the co-occurring pair of
distinct targets is reported. -/
theorem co_mentions_spec_witness :
    coMentionCount demoSources "OpenAI" "Anthropic" =
      coMentionCount demoSources "Anthropic" "OpenAI" ∧
    (coMentionPairs demoTargets demoSources).Nodup ∧
    ("OpenAI", "Anthropic") ∈ coMentionPairs demoTargets demoSources := by
  have h := co_mentions_spec demoTargets demoSources (by decide)
  refine ⟨h.1 "OpenAI" "Anthropic", h.2.1, ?_⟩
  have hcov := h.2.2.2.1 "OpenAI" "Anthropic" (by decide) (by decide) (by decide) (by decide)
  rcases hcov with hm | hm
  · exact hm
  · exact absurd hm (by decide)
